import Mathlib

/-!
Verification of the `peek` directory-listing CLI (Go).

The program reads one directory, classifies its entries into directories and
files (filtering dot-names unless `-a` or `--all` is given), sorts them, and renders
two styled panels plus a footer.  The repository contains several
near-duplicate variants of the ~250-line program:

* the primary variant (`src/main.go`, first program): display-width-aware
  truncation via `go-runewidth`, dot-leader panels;
* a font-autoscaling variant (`src/unnamed/part_000`): additionally rewrites
  the Alacritty configuration file's font size when the listing would overflow
  the terminal;
* a simpler variant (`src/unnamed/part_001`): byte-length based truncation.

The embedding below models the pure computations directly and models the
side-effecting parts (directory reads, terminal queries, config-file writes)
by explicit input records (`FS`, `Env000`) and effect traces (`Eff`).
Styling (lipgloss ANSI colors, borders, exact column geometry) is abstracted:
output is modelled as the sequence of semantic items printed
(`OutItem.helpText`, `OutItem.emptyMarker`, `OutItem.panels`), which is what
the claims under verification are about.
-/

namespace Peek

/-! ## Size formatting (`humanSize`, src/main.go:400-417) -/

/-- The unit table `units := []string{"B", "K", "M", "G", "T"}`. -/
def unitsList : List String := ["B", "K", "M", "G", "T"]

/-- Models `i := int(math.Log(float64(b)) / math.Log(1024))` capped by
`if i >= len(units) { i = len(units) - 1 }`.  We use the exact value
min(⌊log₁₀₂₄ b⌋, 4), written as a comparison chain so that it is
kernel-computable.  The Go float computation agrees with the exact floor at
every boundary relevant to the specification (powers of 1024 divide exactly,
`Log(1024)/Log(1024)` is exactly 1, and all other inputs are hundreds of ulps
away from an integer ratio). -/
def sizeIndex (b : Nat) : Nat :=
  if b < 1024 then 0
  else if b < 1024 ^ 2 then 1
  else if b < 1024 ^ 3 then 2
  else if b < 1024 ^ 4 then 3
  else 4

/-- Round `n / d` to the nearest integer, ties to even: the rounding used by
Go's `fmt.Sprintf("%.1f", val)` (strconv fixed-precision conversion) on a
value that is exactly representable.  For `b < 2^53` the Go float `val` is the
exact rational `b / 1024^i` (float64 of `b` is exact and division by a power
of two is exact), so this models the printed digit exactly. -/
def roundHalfEven (n d : Nat) : Nat :=
  let q := n / d
  let r := n % d
  if 2 * r < d then q
  else if d < 2 * r then q + 1
  else if q % 2 = 0 then q else q + 1

/-- Models `fmt.Sprintf("%.1f", val)` for `val = n / d`: one digit after the
decimal point, correctly rounded (ties to even). -/
def fmtOneDec (n d : Nat) : String :=
  let t := roundHalfEven (10 * n) d
  toString (t / 10) ++ "." ++ toString (t % 10)

/-- Models `humanSize` (src/main.go:400-417).  `b == 0` yields `"0 B"`;
otherwise the unit index is `sizeIndex b`; index 0 prints `"%d B"`;
`val >= 10` (i.e. `10 * 1024^i <= b`) prints `"%d %s"` with `int(val)`
truncation (`b / 1024^i`); otherwise `"%.1f %s"`.  Sizes are non-negative
(`info.Size()` of listed entries), so the domain is `Nat`. -/
def humanSize (b : Nat) : String :=
  if b = 0 then "0 B"
  else if sizeIndex b = 0 then toString b ++ " B"
  else if 10 * 1024 ^ sizeIndex b ≤ b then
    toString (b / 1024 ^ sizeIndex b) ++ " " ++ unitsList.getD (sizeIndex b) "T"
  else
    fmtOneDec b (1024 ^ sizeIndex b) ++ " " ++ unitsList.getD (sizeIndex b) "T"

/-- A size string of the shape `"<m>.<d> <unit>"`: one digit after the decimal
point, with a non-byte unit. -/
def isOneDecimalRendering (s : String) : Prop :=
  ∃ m d : Nat, ∃ u : String, d < 10 ∧ u ∈ ["K", "M", "G", "T"] ∧
    s = toString m ++ "." ++ toString d ++ " " ++ u

/-- A size string of the shape `"<n> <unit>"` with `n ≥ 10` and a non-byte
unit: the integer rendering used at or above ten units. -/
def isIntegerRendering (s : String) : Prop :=
  ∃ n : Nat, ∃ u : String, 10 ≤ n ∧ u ∈ ["K", "M", "G", "T"] ∧
    s = toString n ++ " " ++ u

/-! ## Display width and truncation (src/main.go:359-376) -/

/-- Models `runewidth.RuneWidth` in its default (non-East-Asian) context:
control characters have width 0; Hangul Jamo, CJK radicals/ideographs/
syllables and fullwidth forms have width 2; everything else (including the
ellipsis U+2026, which is an ambiguous-width character rendered narrow by
default) has width 1.  Faithful on all characters appearing in this
development. -/
def runeWidth (c : Char) : Nat :=
  if c.toNat < 0x20 then 0
  else if 0x1100 ≤ c.toNat ∧ c.toNat ≤ 0x115F then 2
  else if 0x2E80 ≤ c.toNat ∧ c.toNat ≤ 0x9FFF then 2
  else if 0xAC00 ≤ c.toNat ∧ c.toNat ≤ 0xD7A3 then 2
  else if 0xFF00 ≤ c.toNat ∧ c.toNat ≤ 0xFF60 then 2
  else 1

/-- Models `runewidth.StringWidth`: the sum of the rune widths.  A Go string
is modelled as its list of runes (`for i, r := range s` iterates runes). -/
def strWidth (s : List Char) : Nat := (s.map runeWidth).sum

/-- The clamp `if max < 4 { max = 4 }` at the top of the primary `truncate`
(src/main.go:360-362); `max` is a Go `int`. -/
def clampMin4 (mx : Int) : Nat := (if mx < 4 then (4 : Int) else mx).toNat

/-- The rune loop of the primary `truncate` (src/main.go:367-374): walk the
runes accumulating display width `w`; as soon as `w + rw > m - 1` return the
consumed prefix followed by `…`; if the loop completes, return the whole
string. -/
def truncGo (m : Nat) : List Char → Nat → List Char
  | [], _ => []
  | r :: rest, w =>
    if m - 1 < w + runeWidth r then ['…']
    else r :: truncGo m rest (w + runeWidth r)

/-- Models the primary `truncate` (src/main.go:359-376): clamp the limit to at
least 4; return `s` unchanged when its display width fits; otherwise truncate
rune-by-rune by display width and append `…`. -/
def truncate (s : List Char) (mx : Int) : List Char :=
  if strWidth s ≤ clampMin4 mx then s
  else truncGo (clampMin4 mx) s 0

/-- UTF-8 byte length of one rune, as produced by Go's string encoding. -/
def utf8Len (c : Char) : Nat :=
  if c.toNat < 0x80 then 1
  else if c.toNat < 0x800 then 2
  else if c.toNat < 0x10000 then 3
  else 4

/-- UTF-8 encoding of one rune (byte values), as in Go strings. -/
def utf8Encode (c : Char) : List Nat :=
  let n := c.toNat
  if n < 0x80 then [n]
  else if n < 0x800 then [0xC0 + n / 64, 0x80 + n % 64]
  else if n < 0x10000 then
    [0xE0 + n / 4096, 0x80 + n / 64 % 64, 0x80 + n % 64]
  else
    [0xF0 + n / 262144, 0x80 + n / 4096 % 64, 0x80 + n / 64 % 64, 0x80 + n % 64]

/-- Byte string of a Go string: concatenation of the UTF-8 encodings of its
runes (`len(s)` in Go is the length of this list, and `s[:k]` slices it). -/
def encodeStr (s : List Char) : List Nat := s.flatMap utf8Encode

/-- A UTF-8 continuation byte. -/
def contB (b : Nat) : Bool := decide (0x80 ≤ b ∧ b < 0xC0)

/-- State machine of a UTF-8 well-formedness check: `k` pending continuation
bytes. -/
def validLoop : Nat → List Nat → Bool
  | 0, [] => true
  | 0, b :: r =>
    if b < 0x80 then validLoop 0 r
    else if b < 0xC2 then false
    else if b < 0xE0 then validLoop 1 r
    else if b < 0xF0 then validLoop 2 r
    else if b < 0xF5 then validLoop 3 r
    else false
  | _ + 1, [] => false
  | k + 1, b :: r => contB b && validLoop k r

/-- Whether a byte list is structurally well-formed UTF-8 (lead bytes followed
by the right number of continuation bytes).  A byte string obtained by cutting
a multi-byte rune in the middle fails this check. -/
def isValidUtf8 (l : List Nat) : Bool := validLoop 0 l

/-- Models the `truncate` of the byte-based variant (src/unnamed/part_001:
325-330): `if len(s) <= max { return s }; return s[:max-1] + "…"`.  It
operates on bytes, has no minimum-width clamp, and `s[:max-1]` panics when
`max - 1 < 0` (modelled by `none`). -/
def truncate001 (s : List Nat) (mx : Int) : Option (List Nat) :=
  if (s.length : Int) ≤ mx then some s
  else if 1 ≤ mx then some (s.take (mx - 1).toNat ++ utf8Encode '…')
  else none

/-! ## Command-line argument parsing (src/main.go:68-90) -/

/-- Models `strings.HasPrefix(s, p)` for a one-byte `p`: a one-byte prefix
test is exactly a first-rune test (no multi-byte UTF-8 rune begins with an
ASCII byte). -/
def firstIs (c : Char) (s : String) : Bool :=
  match s.toList with
  | [] => false
  | x :: _ => x = c

/-- The option state accumulated by the argument loop, plus whether `-h` /
`--help` was hit (in Go the help case prints usage and returns from `main`
immediately, so parsing stops there). -/
structure Opts where
  showAll : Bool
  filesOnly : Bool
  target : String
  help : Bool
  deriving DecidableEq, Repr

/-- The `for _, arg := range os.Args[1:]` switch (src/main.go:73-90): exact
matches set flags, `-h` or `--help` stops processing, any other argument starting
with `-` is ignored, and any other argument becomes the target path. -/
def parseLoop : Opts → List String → Opts
  | o, [] => o
  | o, a :: rest =>
    if a = "-a" ∨ a = "--all" then parseLoop { o with showAll := true } rest
    else if a = "-f" ∨ a = "--files" then parseLoop { o with filesOnly := true } rest
    else if a = "-h" ∨ a = "--help" then { o with help := true }
    else if firstIs '-' a then parseLoop o rest
    else parseLoop { o with target := a } rest

/-- Parse a full argument list starting from the defaults
`showAll := false; filesOnly := false; target := "."`. -/
def parseArgs (args : List String) : Opts :=
  parseLoop ⟨false, false, ".", false⟩ args

/-! ## Directory entries and classification (src/main.go:92-158) -/

/-- One result of `os.ReadDir`, together with the outcomes of the per-entry
system calls the loop performs on it: `statOk` is whether `e.Info()`
succeeded, and `resolvedIsDir` is the outcome of the
`filepath.EvalSymlinks` + `os.Stat` chain for symlinks (`none` when either
step failed). -/
structure DirEnt where
  name : String
  isDirRaw : Bool
  isSym : Bool
  size : Int
  statOk : Bool
  resolvedIsDir : Option Bool
  deriving DecidableEq, Repr

/-- The filesystem as seen by one run: the target directory listing (`none`
models an `os.ReadDir` error) and the child listing of each immediate
subdirectory name (`none` models a read error, which the child-count loop
ignores). -/
structure FS where
  rootListing : Option (List DirEnt)
  childListing : String → Option (List DirEnt)

/-- `strings.HasPrefix(name, ".")`: the hidden-name test. -/
def hidden (s : String) : Bool := firstIs '.' s

/-- The effective directory flag (src/main.go:112-123): `e.IsDir()`, replaced
by the resolved target's `IsDir` when the entry is a symlink and both
`EvalSymlinks` and `Stat` succeed; on resolution failure the link's own type
is kept. -/
def effIsDir (e : DirEnt) : Bool :=
  if e.isSym then
    match e.resolvedIsDir with
    | some d => d
    | none => e.isDirRaw
  else e.isDirRaw

/-- The extension scan behind `strings.TrimPrefix(filepath.Ext(name), ".")`:
the runes after the last `.` of the name, or `none` when the name has no
dot. -/
def extScan : List Char → Option (List Char)
  | [] => none
  | c :: rest =>
    match extScan rest with
    | some e => some e
    | none => if c = '.' then some rest else none

/-- Models `strings.TrimPrefix(filepath.Ext(name), ".")` for a base name
(directory entry names contain no path separator). -/
def goExt (name : String) : String :=
  match extScan name.toList with
  | some e => String.mk e
  | none => ""

/-- The in-memory `entry` struct (src/main.go:57-66). -/
structure Entry where
  name : String
  isDir : Bool
  isSym : Bool
  size : Int
  dot : Bool
  ext : String
  subDirs : Nat
  subFiles : Nat
  deriving DecidableEq, Repr

/-- The child-count loop (src/main.go:143-152): count immediate children,
skipping dot-names unless `showAll`, bucketed by the child's raw `IsDir`. -/
def countChildren (sa : Bool) : List DirEnt → Nat × Nat
  | [] => (0, 0)
  | se :: rest =>
    let p := countChildren sa rest
    if !sa && hidden se.name then p
    else if se.isDirRaw then (p.1 + 1, p.2)
    else (p.1, p.2 + 1)

/-- The `entry` value built for one directory entry (src/main.go:125-153):
extension only for non-directories, child counts only for directories when
not in files-only mode (a failed child read leaves the counts at zero). -/
def entryOf (sa fo : Bool) (fs : FS) (e : DirEnt) : Entry :=
  let sub :=
    if effIsDir e && !fo then
      match fs.childListing e.name with
      | some l => countChildren sa l
      | none => (0, 0)
    else (0, 0)
  { name := e.name
    isDir := effIsDir e
    isSym := e.isSym
    size := e.size
    dot := hidden e.name
    ext := if effIsDir e then "" else goExt e.name
    subDirs := sub.1
    subFiles := sub.2 }

/-- The classification loop (src/main.go:99-158), preserving iteration order:
dot-names are skipped unless `showAll`; entries whose `Info()` failed are
skipped; directories go to the first list unless files-only; non-directories
go to the second list; directories in files-only mode go nowhere. -/
def classify (sa fo : Bool) (fs : FS) : List DirEnt → List Entry × List Entry
  | [] => ([], [])
  | e :: rest =>
    let p := classify sa fo fs rest
    if hidden e.name && !sa then p
    else if !e.statOk then p
    else if effIsDir e && !fo then (entryOf sa fo fs e :: p.1, p.2)
    else if !effIsDir e then (p.1, entryOf sa fo fs e :: p.2)
    else p

/-! ## Sorting (src/main.go:160-169)

Go's `sort.Slice` is an unstable comparison sort; the order of elements the
comparator considers tied is unspecified.  We model it by insertion sort with
the non-strict version of the Go comparator; every property proved below
(pairwise order of the output) holds for any correct implementation of
`sort.Slice` with the given comparator. -/

/-- ASCII case folding of one rune.  Models `strings.ToLower` on the
characters relevant here; Go also folds non-ASCII letters, which does not
affect any property proved below (the sortedness statements use this same
folding on both sides). -/
def toLowerChar (c : Char) : Char :=
  if 'A' ≤ c ∧ c ≤ 'Z' then Char.ofNat (c.toNat + 32) else c

/-- The case-folded rune list of a name, as compared by
`strings.ToLower(items[i].name) < strings.ToLower(items[j].name)`. -/
def lowerChars (s : String) : List Char := s.toList.map toLowerChar

/-- Lexicographic order on rune lists.  Go compares strings byte-wise; UTF-8
byte order coincides with code-point order, so this is the same order. -/
def lexLe : List Char → List Char → Bool
  | [], _ => true
  | _ :: _, [] => false
  | x :: xs, y :: ys =>
    if x < y then true
    else if y < x then false
    else lexLe xs ys

/-- Non-strict version of the directory comparator of src/main.go:161-163. -/
def dirLe (a b : Entry) : Bool := lexLe (lowerChars a.name) (lowerChars b.name)

/-- Non-strict version of the file comparator of src/main.go:167-169
(decreasing size). -/
def fileLe (a b : Entry) : Bool := decide (b.size ≤ a.size)

/-- Insert into a sorted list, keeping it sorted w.r.t. `le`. -/
def insertLe (le : α → α → Bool) (a : α) : List α → List α
  | [] => [a]
  | b :: t => if le a b then a :: b :: t else b :: insertLe le a t

/-- Insertion sort w.r.t. `le`. -/
def sortBy (le : α → α → Bool) : List α → List α
  | [] => []
  | a :: t => insertLe le a (sortBy le t)

/-! ## The run (src/main.go:68-268) -/

/-- One semantic item printed to standard output.  Panel geometry and ANSI
styling are abstracted; `panels` carries the entry lists in rendered order and
the two footer counts passed to `printFooter` (this covers all three layout
paths: two panels, files-only single panel, dirs-only single panel). -/
inductive OutItem where
  | helpText : OutItem
  | emptyMarker : OutItem
  | panels : List Entry → List Entry → Nat → Nat → OutItem
  deriving DecidableEq, Repr

/-- Observable outcome of a run: exit code, standard-output items, and
standard-error lines. -/
structure RunResult where
  exitCode : Nat
  stdout : List OutItem
  stderr : List String
  deriving DecidableEq, Repr

/-- The sorted directory and file lists of one run (src/main.go:160-169):
directories by case-insensitive name, files by decreasing size. -/
def listsOf (o : Opts) (fs : FS) (entries : List DirEnt) : List Entry × List Entry :=
  (sortBy dirLe (classify o.showAll o.filesOnly fs entries).1,
   sortBy fileLe (classify o.showAll o.filesOnly fs entries).2)

/-- Models `main` of the primary variant: parse arguments (help prints usage
and exits 0); read the target directory (failure prints one line to standard
error and exits 1); classify, sort, and either print the `empty` marker or
the panels with the footer counts.  The error-line text is the fixed marker
`"error"` (the real message interpolates the OS error string, which the model
does not carry; only its presence matters to the claims). -/
def run (args : List String) (fs : FS) : RunResult :=
  if (parseArgs args).help then ⟨0, [OutItem.helpText], []⟩
  else
    match fs.rootListing with
    | none => ⟨1, [], ["error"]⟩
    | some entries =>
      if (listsOf (parseArgs args) fs entries).1.length == 0 &&
          (listsOf (parseArgs args) fs entries).2.length == 0 then
        ⟨0, [OutItem.emptyMarker], []⟩
      else
        ⟨0, [OutItem.panels (listsOf (parseArgs args) fs entries).1
              (listsOf (parseArgs args) fs entries).2
              (listsOf (parseArgs args) fs entries).1.length
              (listsOf (parseArgs args) fs entries).2.length], []⟩

/-! ## Filesystem effect traces

For the frame claim we record which filesystem operations a run performs.
`src/unnamed/part_000` is the font-autoscaling variant: when the listing
would overflow the terminal and an Alacritty configuration file is found, it
rewrites that file's font size and restores it on exit. -/

/-- A filesystem or terminal operation. -/
inductive Eff where
  | readDirE : String → Eff
  | statE : String → Eff
  | readFileE : String → Eff
  | writeFileE : String → Eff
  | termSizeQ : Eff
  deriving DecidableEq, Repr

/-- Whether an effect mutates the filesystem. -/
def isWrite : Eff → Bool
  | Eff.writeFileE _ => true
  | _ => false

/-- Per-entry trace of the classification loop for one entry: one stat for
`e.Info()` (skipped entries are filtered before it), resolution reads for
symlinks (collapsed to one stat), and one child-directory read for
directories outside files-only mode.  All of these are reads. -/
def entryTraceOne (o : Opts) (e : DirEnt) : List Eff :=
  if hidden e.name && !o.showAll then []
  else
    Eff.statE (o.target ++ "/" ++ e.name) ::
      (if !e.statOk then []
       else
         (if e.isSym then [Eff.statE (o.target ++ "/" ++ e.name)] else []) ++
           (if effIsDir e && !o.filesOnly then
             [Eff.readDirE (o.target ++ "/" ++ e.name)]
           else []))

/-- Per-entry trace of the whole classification loop. -/
def entryTrace (o : Opts) (l : List DirEnt) : List Eff :=
  l.flatMap (entryTraceOne o)

/-- Effect trace of the primary variant's `main`: one read of the target
directory, the per-entry stats and child reads, and one terminal-size query
(skipped on the empty-listing early return).  No writes occur. -/
def mainTrace (args : List String) (fs : FS) : List Eff :=
  let o := parseArgs args
  if o.help then []
  else
    Eff.readDirE o.target ::
      match fs.rootListing with
      | none => []
      | some entries =>
        entryTrace o entries ++
          (let p := classify o.showAll o.filesOnly fs entries
           if p.1.length == 0 && p.2.length == 0 then []
           else [Eff.termSizeQ])

/-- Environment of the font-autoscaling variant (src/unnamed/part_000):
the `APPDATA` variable, whether the Alacritty config file stats and reads
successfully, the font size its regex parses (`none` models a missing match
or parse failure, which `readFontSize` reports as 0), and the two possible
`term.GetSize` results.  Font sizes are modelled as exact rationals; the
float computations involved are far from every comparison boundary at the
inputs used below. -/
structure Env000 where
  appdata : Option String
  cfgStatOk : Bool
  cfgReadOk : Bool
  cfgFontSize : Option ℚ
  term1 : Option (Nat × Nat)
  term2 : Option (Nat × Nat)

/-- Models `alacrittyConfigPath` (src/unnamed/part_000:298-308): empty or
unset `APPDATA` yields no path; otherwise the joined path if it stats. -/
def alacrittyCfgPath (env : Env000) : Option String :=
  match env.appdata with
  | none => none
  | some a =>
    if a = "" then none
    else if env.cfgStatOk then some (a ++ "/alacritty/alacritty.toml")
    else none

/-- The stat effect performed by `alacrittyConfigPath` (issued whenever
`APPDATA` is non-empty, before the existence check). -/
def cfgPathTrace (env : Env000) : List Eff :=
  match env.appdata with
  | none => []
  | some a => if a = "" then [] else [Eff.statE (a ++ "/alacritty/alacritty.toml")]

/-- The value `readFontSize` returns: the parsed size when the read and the
regex and the parse all succeed, 0 otherwise (src/unnamed/part_000:310-324). -/
def readFontSizeVal (env : Env000) : ℚ :=
  if env.cfgReadOk then (env.cfgFontSize.getD 0) else 0

/-- Effects of one `writeFontSize` call (src/unnamed/part_000:326-333): read
the config file, and — when the read succeeds — write it back. -/
def writeFontSizeTrace (env : Env000) (p : String) : List Eff :=
  Eff.readFileE p :: (if env.cfgReadOk then [Eff.writeFileE p] else [])

/-- Effect trace of the font-autoscaling variant's `main`
(src/unnamed/part_000:66-296): as the primary variant, plus the Alacritty
block (lines 182-212): when the content would need more lines than the
terminal has and a config file is found with a positive font size whose
scaled-down value (clamped to at least 7.0) is smaller, the file is
rewritten, the terminal re-queried, and a deferred call restores the original
size at exit. -/
def part000Trace (args : List String) (fs : FS) (env : Env000) : List Eff :=
  let o := parseArgs args
  if o.help then []
  else
    Eff.readDirE o.target ::
      match fs.rootListing with
      | none => []
      | some entries =>
        let p := classify o.showAll o.filesOnly fs entries
        entryTrace o entries ++
          (if p.1.length == 0 && p.2.length == 0 then []
           else
             Eff.termSizeQ ::
               (let h := match env.term1 with
                   | some wh => if 0 < wh.1 then wh.2 else 24
                   | none => 24
                let contentLines := Nat.max (p.1.length * 2) (p.2.length * 2)
                let needed := contentLines + 10
                cfgPathTrace env ++
                  match alacrittyCfgPath env with
                  | none => []
                  | some cp =>
                    if needed ≤ h then []
                    else
                      Eff.readFileE cp ::
                        (let orig := readFontSizeVal env
                         if orig ≤ 0 then []
                         else
                           let ns0 := orig * (h : ℚ) / (needed : ℚ)
                           let ns := if ns0 < 7 then (7 : ℚ) else ns0
                           if ns < orig then
                             writeFontSizeTrace env cp ++
                               Eff.termSizeQ :: writeFontSizeTrace env cp
                           else [])))

/-! ## Helper lemmas: size formatting -/

lemma sizeIndex_values (b : Nat) (h : 1024 ≤ b) :
    sizeIndex b = 1 ∨ sizeIndex b = 2 ∨ sizeIndex b = 3 ∨ sizeIndex b = 4 := by
  have h1 : ¬ b < 1024 := by omega
  unfold sizeIndex
  rw [if_neg h1]
  split
  · exact Or.inl rfl
  · split
    · exact Or.inr (Or.inl rfl)
    · split
      · exact Or.inr (Or.inr (Or.inl rfl))
      · exact Or.inr (Or.inr (Or.inr rfl))

lemma sizeIndex_ne_zero (b : Nat) (h : 1024 ≤ b) : sizeIndex b ≠ 0 := by
  rcases sizeIndex_values b h with h' | h' | h' | h' <;> omega

lemma unitsList_getD_mem (b : Nat) (h : 1024 ≤ b) :
    unitsList.getD (sizeIndex b) "T" ∈ (["K", "M", "G", "T"] : List String) := by
  rcases sizeIndex_values b h with h' | h' | h' | h' <;> rw [h'] <;> decide

/-- C3: humanSize renders 0 as "0 B", byte counts 1..1023 as the decimal
number followed by " B", 1024 as "1.0 K", and at every unit step a value
below 10 in its unit with one decimal place while a value of 10 or more as an
integer. -/
theorem humanSize_spec :
    humanSize 0 = "0 B" ∧
    (∀ b : Nat, 1 ≤ b → b ≤ 1023 → humanSize b = toString b ++ " B") ∧
    humanSize 1024 = "1.0 K" ∧
    (∀ b : Nat, 1024 ≤ b →
      (b < 10 * 1024 ^ sizeIndex b → isOneDecimalRendering (humanSize b)) ∧
      (10 * 1024 ^ sizeIndex b ≤ b → isIntegerRendering (humanSize b))) := by
  refine ⟨by decide, ?_, by decide, ?_⟩
  · intro b h1 h2
    have hb0 : ¬ b = 0 := by omega
    have hlt : b < 1024 := by omega
    have hsi : sizeIndex b = 0 := by unfold sizeIndex; rw [if_pos hlt]
    simp [humanSize, hb0, hsi]
  · intro b hb
    have hb0 : ¬ b = 0 := by omega
    have hsi := sizeIndex_ne_zero b hb
    refine ⟨fun h => ?_, fun h => ?_⟩
    · have hnot : ¬ 10 * 1024 ^ sizeIndex b ≤ b := by omega
      refine ⟨roundHalfEven (10 * b) (1024 ^ sizeIndex b) / 10,
              roundHalfEven (10 * b) (1024 ^ sizeIndex b) % 10,
              unitsList.getD (sizeIndex b) "T",
              Nat.mod_lt _ (by norm_num), unitsList_getD_mem b hb, ?_⟩
      simp [humanSize, hb0, hsi, hnot, fmtOneDec]
    · have h10 : 10 ≤ b / 1024 ^ sizeIndex b :=
        (Nat.le_div_iff_mul_le (by positivity)).mpr h
      refine ⟨b / 1024 ^ sizeIndex b, unitsList.getD (sizeIndex b) "T", h10,
              unitsList_getD_mem b hb, ?_⟩
      simp [humanSize, hb0, hsi, h]

/-- Witness for C3 at concrete inputs: 512 bytes, 1.5 K, 10 K. -/
theorem humanSize_spec_witness :
    humanSize 512 = "512 B" ∧
    isOneDecimalRendering (humanSize 1536) ∧
    isIntegerRendering (humanSize 10240) :=
  ⟨humanSize_spec.2.1 512 (by decide) (by decide),
   (humanSize_spec.2.2.2 1536 (by decide)).1 (by decide),
   (humanSize_spec.2.2.2 10240 (by decide)).2 (by decide)⟩

/-! ## Helper lemmas: truncation -/

lemma clampMin4_ge (mx : Int) : 4 ≤ clampMin4 mx := by
  unfold clampMin4; split <;> omega

lemma clampMin4_eq (mx : Int) (h : 4 ≤ mx) : (clampMin4 mx : Int) = mx := by
  unfold clampMin4
  rw [if_neg (by omega)]
  omega

lemma strWidth_cons (r : Char) (t : List Char) :
    strWidth (r :: t) = runeWidth r + strWidth t := by
  simp [strWidth]

lemma strWidth_append (a b : List Char) :
    strWidth (a ++ b) = strWidth a + strWidth b := by
  simp [strWidth]

lemma truncGo_spec (m : Nat) (hm : 1 ≤ m) :
    ∀ (rest : List Char) (w : Nat), w ≤ m - 1 →
      (truncGo m rest w = rest ∧ w + strWidth rest ≤ m - 1) ∨
      (∃ p q, rest = p ++ q ∧ truncGo m rest w = p ++ ['…'] ∧
        w + strWidth p + 1 ≤ m) := by
  intro rest
  induction rest with
  | nil =>
    intro w hw
    left
    exact ⟨rfl, by simpa [strWidth] using hw⟩
  | cons r t ih =>
    intro w hw
    by_cases h : m - 1 < w + runeWidth r
    · right
      refine ⟨[], r :: t, rfl, ?_, ?_⟩
      · simp [truncGo, h]
      · simp [strWidth]; omega
    · have hw' : w + runeWidth r ≤ m - 1 := by omega
      rcases ih (w + runeWidth r) hw' with ⟨he, hb⟩ | ⟨p, q, hpq, he, hb⟩
      · left
        refine ⟨?_, ?_⟩
        · simp [truncGo, h, he]
        · rw [strWidth_cons]; omega
      · right
        refine ⟨r :: p, q, by simp [hpq], ?_, ?_⟩
        · simp [truncGo, h, he]
        · rw [strWidth_cons]; omega

lemma truncate_cases (s : List Char) (mx : Int) :
    (strWidth s ≤ clampMin4 mx ∧ truncate s mx = s) ∨
    (∃ n : Nat, truncate s mx = s.take n ++ ['…'] ∧
      strWidth (s.take n ++ ['…']) ≤ clampMin4 mx) := by
  by_cases h : strWidth s ≤ clampMin4 mx
  · left; exact ⟨h, by simp [truncate, h]⟩
  · right
    have hm : 1 ≤ clampMin4 mx := le_trans (by norm_num) (clampMin4_ge mx)
    rcases truncGo_spec (clampMin4 mx) hm s 0 (by omega) with ⟨he, hb⟩ | ⟨p, q, hpq, he, hb⟩
    · exact absurd (by omega : strWidth s ≤ clampMin4 mx) h
    · refine ⟨p.length, ?_, ?_⟩
      · rw [truncate, if_neg h, he, hpq, List.take_left]
      · have h1 : strWidth (['…'] : List Char) = 1 := by decide
        rw [hpq, List.take_left, strWidth_append, h1]
        omega

/-- C6 (amended to the primary variant, src/main.go:359-376): `truncate`
clamps the limit to a minimum floor of 4 (and leaves limits of at least 4
unchanged); it returns `s` itself when the display width of `s` fits within
the clamped limit, and otherwise returns a rune prefix of `s` followed by
`…` whose display width does not exceed the clamped limit.  The byte-based
variant in src/unnamed/part_001 has no such floor (see the
counterexample). -/
theorem truncate_clamp_spec (s : List Char) (mx : Int) :
    4 ≤ clampMin4 mx ∧
    (4 ≤ mx → (clampMin4 mx : Int) = mx) ∧
    (strWidth s ≤ clampMin4 mx → truncate s mx = s) ∧
    (clampMin4 mx < strWidth s →
      ∃ n : Nat, truncate s mx = s.take n ++ ['…'] ∧
        strWidth (s.take n ++ ['…']) ≤ clampMin4 mx) := by
  refine ⟨clampMin4_ge mx, clampMin4_eq mx, fun h => by simp [truncate, h], fun h => ?_⟩
  rcases truncate_cases s mx with ⟨hw, _⟩ | hex
  · omega
  · exact hex

/-- Witness for C6: at limit 0 the clamped limit is 4 and "hi" fits. -/
theorem truncate_clamp_spec_witness :
    clampMin4 0 = 4 ∧ truncate (String.toList "hi") 0 = String.toList "hi" :=
  ⟨by decide, (truncate_clamp_spec (String.toList "hi") 0).2.2.1 (by decide)⟩

/-- C6 counterexample: the truncate of src/unnamed/part_001 applies no
minimum-width floor.  At limit 3 the claim's clamped limit would be 4 and
"heyo" (display width 4) would be returned unchanged; the code truncates it
to "he…". -/
theorem truncate001_no_floor_counterexample :
    clampMin4 3 = 4 ∧
    strWidth (String.toList "heyo") ≤ clampMin4 3 ∧
    truncate001 (encodeStr (String.toList "heyo")) 3 =
      some (encodeStr (String.toList "he…")) ∧
    encodeStr (String.toList "he…") ≠ encodeStr (String.toList "heyo") := by
  decide

/-- C5 (amended): the primary truncate measures terminal column width, not
byte length: a string whose display width fits the clamped limit is returned
unchanged (even when its byte length exceeds the limit, conjunct 3), wide
runes count two columns (conjunct 4), and the result is never cut in the
middle of a multi-byte rune: its byte encoding is the encoding of a whole-rune
prefix plus the encoding of `…`.  The byte-based variant of
src/unnamed/part_001 violates all of this (see the counterexample). -/
theorem truncate_display_width_spec :
    (∀ (s : List Char) (mx : Int), strWidth s ≤ clampMin4 mx → truncate s mx = s) ∧
    (∀ (s : List Char) (mx : Int), ∃ n : Nat,
       truncate s mx = s ∨
       encodeStr (truncate s mx) = encodeStr (s.take n) ++ utf8Encode '…') ∧
    truncate (String.toList "ααααα") 5 = String.toList "ααααα" ∧
    truncate (String.toList "漢漢漢") 4 =
      (String.toList "漢漢漢").take 1 ++ ['…'] := by
  refine ⟨fun s mx h => by simp [truncate, h], fun s mx => ?_, by decide, by decide⟩
  rcases truncate_cases s mx with ⟨_, he⟩ | ⟨n, he, _⟩
  · exact ⟨0, Or.inl he⟩
  · refine ⟨n, Or.inr ?_⟩
    rw [he]
    simp [encodeStr]

/-- Witness for C5: a 10-byte, width-5 Greek name fits a limit of 8 and is
returned unchanged by the primary truncate. -/
theorem truncate_display_width_spec_witness :
    strWidth (String.toList "ααααα") ≤ clampMin4 8 ∧
    truncate (String.toList "ααααα") 8 = String.toList "ααααα" :=
  ⟨by decide, truncate_display_width_spec.1 (String.toList "ααααα") 8 (by decide)⟩

/-- C5 counterexample: the truncate of src/unnamed/part_001 measures byte
length and slices bytes: the Greek name "ααααα" has display width 5, which
fits within the limit 8, yet the function truncates it (its byte length is
10), and the byte it cuts at falls in the middle of a two-byte rune, leaving
an ill-formed UTF-8 string. -/
theorem truncate001_midrune_counterexample :
    strWidth (String.toList "ααααα") ≤ 8 ∧
    truncate001 (encodeStr (String.toList "ααααα")) 8 ≠
      some (encodeStr (String.toList "ααααα")) ∧
    isValidUtf8 ((truncate001 (encodeStr (String.toList "ααααα")) 8).getD []) = false := by
  decide

/-! ## Helper lemmas: argument parsing -/

lemma parseLoop_skip (a : String) (hd : firstIs '-' a = true)
    (hn : a ∉ (["-a", "--all", "-f", "--files", "-h", "--help"] : List String)) :
    ∀ (pre post : List String) (o : Opts),
      parseLoop o (pre ++ a :: post) = parseLoop o (pre ++ post) := by
  intro pre
  induction pre with
  | nil =>
    intro post o
    have h1 : ¬(a = "-a" ∨ a = "--all") := by rintro (rfl | rfl) <;> simp at hn
    have h2 : ¬(a = "-f" ∨ a = "--files") := by rintro (rfl | rfl) <;> simp at hn
    have h3 : ¬(a = "-h" ∨ a = "--help") := by rintro (rfl | rfl) <;> simp at hn
    simp only [List.nil_append, parseLoop]
    rw [if_neg h1, if_neg h2, if_neg h3, if_pos hd]
  | cons x xs ih =>
    intro post o
    simp only [List.cons_append, parseLoop]
    by_cases k1 : x = "-a" ∨ x = "--all"
    · rw [if_pos k1, if_pos k1]; exact ih _ _
    · rw [if_neg k1, if_neg k1]
      by_cases k2 : x = "-f" ∨ x = "--files"
      · rw [if_pos k2, if_pos k2]; exact ih _ _
      · rw [if_neg k2, if_neg k2]
        by_cases k3 : x = "-h" ∨ x = "--help"
        · rw [if_pos k3, if_pos k3]
        · rw [if_neg k3, if_neg k3]
          by_cases k4 : firstIs '-' x = true
          · rw [if_pos k4, if_pos k4]; exact ih _ _
          · rw [if_neg k4, if_neg k4]; exact ih _ _

lemma parseLoop_target :
    ∀ (args : List String) (o : Opts), "-h" ∉ args → "--help" ∉ args →
      (parseLoop o args).target =
        (args.filter fun s => !firstIs '-' s).getLastD o.target := by
  intro args
  induction args with
  | nil => intro o _ _; simp [parseLoop]
  | cons a t ih =>
    intro o h1 h2
    have ha1 : a ≠ "-h" := fun h => h1 (h ▸ List.mem_cons_self a t)
    have ha2 : a ≠ "--help" := fun h => h2 (h ▸ List.mem_cons_self a t)
    have ht1 : "-h" ∉ t := fun h => h1 (List.mem_cons_of_mem a h)
    have ht2 : "--help" ∉ t := fun h => h2 (List.mem_cons_of_mem a h)
    simp only [parseLoop]
    by_cases hc1 : a = "-a" ∨ a = "--all"
    · rw [if_pos hc1, ih _ ht1 ht2]
      have hst : firstIs '-' a = true := by rcases hc1 with rfl | rfl <;> decide
      simp [List.filter_cons, hst]
    · rw [if_neg hc1]
      by_cases hc2 : a = "-f" ∨ a = "--files"
      · rw [if_pos hc2, ih _ ht1 ht2]
        have hst : firstIs '-' a = true := by rcases hc2 with rfl | rfl <;> decide
        simp [List.filter_cons, hst]
      · rw [if_neg hc2]
        have hc3 : ¬(a = "-h" ∨ a = "--help") := by
          rintro (rfl | rfl)
          · exact ha1 rfl
          · exact ha2 rfl
        rw [if_neg hc3]
        by_cases hc4 : firstIs '-' a = true
        · rw [if_pos hc4, ih _ ht1 ht2]
          simp [List.filter_cons, hc4]
        · rw [if_neg hc4, ih _ ht1 ht2]
          have hst : firstIs '-' a = false := by simpa using hc4
          rw [List.filter_cons]
          simp only [hst, Bool.not_false, if_true]
          rw [List.getLastD_cons]

/-- C9: every argument that starts with a dash and is none of the six flag
spellings is silently ignored (removing it from the argument list does not
change the parse), and in a run without the help flag the target path is the
last argument not starting with a dash (default "."). -/
theorem arg_parsing_spec :
    (∀ (pre post : List String) (a : String), firstIs '-' a = true →
       a ∉ (["-a", "--all", "-f", "--files", "-h", "--help"] : List String) →
       parseArgs (pre ++ a :: post) = parseArgs (pre ++ post)) ∧
    (∀ args : List String, "-h" ∉ args → "--help" ∉ args →
       (parseArgs args).target =
         (args.filter fun s => !firstIs '-' s).getLastD ".") := by
  constructor
  · intro pre post a hd hn
    exact parseLoop_skip a hd hn pre post _
  · intro args h1 h2
    exact parseLoop_target args _ h1 h2

/-- Witness for C9: dropping the unknown flag "-x" does not change the parse,
and the last non-dash argument wins. -/
theorem arg_parsing_spec_witness :
    parseArgs (["-a"] ++ "-x" :: ["p"]) = parseArgs (["-a"] ++ ["p"]) ∧
    (parseArgs ["-a", "p", "q"]).target =
      ((["-a", "p", "q"] : List String).filter fun s => !firstIs '-' s).getLastD "." :=
  ⟨arg_parsing_spec.1 ["-a"] ["p"] "-x" (by decide) (by decide),
   arg_parsing_spec.2 ["-a", "p", "q"] (by decide) (by decide)⟩

/-! ## Helper lemmas: sorting -/

lemma mem_insertLe (le : α → α → Bool) (a x : α) :
    ∀ l : List α, x ∈ insertLe le a l ↔ x = a ∨ x ∈ l := by
  intro l
  induction l with
  | nil => simp [insertLe]
  | cons b t ih =>
    by_cases h : le a b = true
    · simp only [insertLe, if_pos h, List.mem_cons]
    · simp only [insertLe, if_neg h, List.mem_cons, ih]
      tauto

lemma pairwise_insertLe (le : α → α → Bool)
    (htot : ∀ a b, le a b = true ∨ le b a = true)
    (htrans : ∀ a b c, le a b = true → le b c = true → le a c = true)
    (a : α) :
    ∀ l : List α, l.Pairwise (fun x y => le x y = true) →
      (insertLe le a l).Pairwise (fun x y => le x y = true) := by
  intro l
  induction l with
  | nil => intro _; simp [insertLe]
  | cons b t ih =>
    intro h
    rcases List.pairwise_cons.mp h with ⟨hb, ht⟩
    by_cases hab : le a b = true
    · rw [insertLe, if_pos hab]
      refine List.pairwise_cons.mpr ⟨?_, h⟩
      intro x hx
      rcases List.mem_cons.mp hx with rfl | hx'
      · exact hab
      · exact htrans a b x hab (hb x hx')
    · rw [insertLe, if_neg hab]
      refine List.pairwise_cons.mpr ⟨?_, ih ht⟩
      intro x hx
      rcases (mem_insertLe le a x t).mp hx with heq | hx'
      · rw [heq]
        rcases htot a b with h' | h'
        · exact absurd h' hab
        · exact h'
      · exact hb x hx'

lemma pairwise_sortBy (le : α → α → Bool)
    (htot : ∀ a b, le a b = true ∨ le b a = true)
    (htrans : ∀ a b c, le a b = true → le b c = true → le a c = true) :
    ∀ l : List α, (sortBy le l).Pairwise (fun x y => le x y = true) := by
  intro l
  induction l with
  | nil => simp [sortBy]
  | cons a t ih =>
    rw [sortBy]
    exact pairwise_insertLe le htot htrans a _ ih

lemma mem_sortBy (le : α → α → Bool) (x : α) :
    ∀ l : List α, x ∈ sortBy le l ↔ x ∈ l := by
  intro l
  induction l with
  | nil => simp [sortBy]
  | cons a t ih =>
    rw [sortBy, mem_insertLe]
    simp [ih]

lemma lexLe_total : ∀ xs ys : List Char, lexLe xs ys = true ∨ lexLe ys xs = true := by
  intro xs
  induction xs with
  | nil => intro ys; left; rfl
  | cons x xs ih =>
    intro ys
    cases ys with
    | nil => right; rfl
    | cons y ys =>
      rcases lt_trichotomy x y with h | h | h
      · left; simp [lexLe, h]
      · subst h
        rcases ih ys with h' | h'
        · left; simp [lexLe, lt_irrefl x, h']
        · right; simp [lexLe, lt_irrefl x, h']
      · right; simp [lexLe, h]

lemma lexLe_trans : ∀ xs ys zs : List Char,
    lexLe xs ys = true → lexLe ys zs = true → lexLe xs zs = true := by
  intro xs
  induction xs with
  | nil => intro ys zs _ _; rfl
  | cons x xs ih =>
    intro ys zs h1 h2
    cases ys with
    | nil => simp [lexLe] at h1
    | cons y ys =>
      cases zs with
      | nil => simp [lexLe] at h2
      | cons z zs =>
        rcases lt_trichotomy x y with hxy | hxy | hxy
        · rcases lt_trichotomy y z with hyz | hyz | hyz
          · simp [lexLe, lt_trans hxy hyz]
          · subst hyz; simp [lexLe, hxy]
          · simp [lexLe, lt_asymm hyz, hyz] at h2
        · subst hxy
          rcases lt_trichotomy x z with hxz | hxz | hxz
          · simp [lexLe, hxz]
          · subst hxz
            simp only [lexLe, lt_irrefl x, if_false] at h1 h2 ⊢
            exact ih ys zs h1 h2
          · simp [lexLe, lt_asymm hxz, hxz] at h2
        · simp [lexLe, lt_asymm hxy, hxy] at h1

lemma dirLe_total (a b : Entry) : dirLe a b = true ∨ dirLe b a = true :=
  lexLe_total _ _

lemma dirLe_trans (a b c : Entry) :
    dirLe a b = true → dirLe b c = true → dirLe a c = true :=
  lexLe_trans _ _ _

lemma fileLe_total (a b : Entry) : fileLe a b = true ∨ fileLe b a = true := by
  simp only [fileLe, decide_eq_true_eq]
  exact le_total _ _

lemma fileLe_trans (a b c : Entry) :
    fileLe a b = true → fileLe b c = true → fileLe a c = true := by
  simp only [fileLe, decide_eq_true_eq]
  intro h1 h2
  exact le_trans h2 h1

/-! ## Helper lemmas: the run -/

lemma run_panels_inv (args : List String) (fs : FS) (ds fls : List Entry) (fd ff : Nat)
    (h : (run args fs).stdout = [OutItem.panels ds fls fd ff]) :
    ∃ entries, fs.rootListing = some entries ∧ (parseArgs args).help = false ∧
      ds = (listsOf (parseArgs args) fs entries).1 ∧
      fls = (listsOf (parseArgs args) fs entries).2 ∧
      fd = ds.length ∧ ff = fls.length := by
  by_cases hh : (parseArgs args).help
  · simp [run, hh] at h
  · cases hr : fs.rootListing with
    | none => simp [run, hh, hr] at h
    | some entries =>
      have hh' : (parseArgs args).help = false := by simpa using hh
      simp only [run, hh', hr, Bool.false_eq_true, if_false] at h
      split at h
      · simp at h
      · simp only [RunResult.stdout] at h
        rw [List.cons.injEq] at h
        obtain ⟨hpan, -⟩ := h
        rw [OutItem.panels.injEq] at hpan
        obtain ⟨h1, h2, h3, h4⟩ := hpan
        subst h1
        subst h2
        exact ⟨entries, rfl, hh', rfl, rfl, h3.symm, h4.symm⟩

/-- C1: the program exits 1 with a standard-error message exactly when
reading the target directory fails; every other run (help flag included)
exits 0 with nothing on standard error. -/
theorem run_exit_code_spec (args : List String) (fs : FS) :
    ((run args fs).exitCode = 1 ↔
      ((parseArgs args).help = false ∧ fs.rootListing = none)) ∧
    ((run args fs).stderr = [] ↔
      ((parseArgs args).help = true ∨ fs.rootListing ≠ none)) ∧
    ((run args fs).exitCode = 0 ∨ (run args fs).exitCode = 1) := by
  by_cases hh : (parseArgs args).help
  · simp [run, hh]
  · have hh' : (parseArgs args).help = false := by simpa using hh
    cases hr : fs.rootListing with
    | none => simp [run, hh', hr]
    | some entries =>
      simp only [run, hh', hr, Bool.false_eq_true, if_false]
      split <;> simp

/-- Witness for C1: a run whose directory read fails exits 1. -/
theorem run_exit_code_spec_witness :
    (run [] (⟨none, fun _ => none⟩ : FS)).exitCode = 1 :=
  (run_exit_code_spec [] ⟨none, fun _ => none⟩).1.mpr ⟨rfl, rfl⟩

/-! ## Helper lemmas: classification -/

lemma entryOf_name (sa fo : Bool) (fs : FS) (e : DirEnt) :
    (entryOf sa fo fs e).name = e.name := rfl

lemma classify_hidden_false (fo : Bool) (fs : FS) :
    ∀ l : List DirEnt,
      (∀ x ∈ (classify false fo fs l).1, hidden x.name = false) ∧
      (∀ x ∈ (classify false fo fs l).2, hidden x.name = false) := by
  intro l
  induction l with
  | nil => simp [classify]
  | cons e rest ih =>
    by_cases he : hidden e.name = true
    · have hc : (hidden e.name && !false) = true := by simp [he]
      simp only [classify]
      rw [if_pos hc]
      exact ih
    · have he' : hidden e.name = false := by simpa using he
      have hc : ¬((hidden e.name && !false) = true) := by simp [he']
      simp only [classify]
      rw [if_neg hc]
      by_cases hs : e.statOk = true
      · rw [if_neg (by simp [hs] : ¬((!e.statOk) = true))]
        by_cases hd : (effIsDir e && !fo) = true
        · rw [if_pos hd]
          refine ⟨?_, ih.2⟩
          intro x hx
          rcases List.mem_cons.mp hx with rfl | hx'
          · rw [entryOf_name]; exact he'
          · exact ih.1 x hx'
        · rw [if_neg hd]
          by_cases hnd : (!effIsDir e) = true
          · rw [if_pos hnd]
            refine ⟨ih.1, ?_⟩
            intro x hx
            rcases List.mem_cons.mp hx with rfl | hx'
            · rw [entryOf_name]; exact he'
            · exact ih.2 x hx'
          · rw [if_neg hnd]; exact ih
      · rw [if_pos (by simpa using hs : (!e.statOk) = true)]
        exact ih

lemma classify_mem (sa fo : Bool) (fs : FS) :
    ∀ (l : List DirEnt) (e : DirEnt), e ∈ l →
      (hidden e.name = false ∨ sa = true) → e.statOk = true →
      ((effIsDir e = true → fo = false → entryOf sa fo fs e ∈ (classify sa fo fs l).1) ∧
       (effIsDir e = false → entryOf sa fo fs e ∈ (classify sa fo fs l).2)) := by
  intro l
  induction l with
  | nil => intro e he; simp at he
  | cons a rest ih =>
    intro e he hpass hstat
    rcases List.mem_cons.mp he with rfl | he'
    · have hc : ¬((hidden e.name && !sa) = true) := by
        rcases hpass with h | h <;> simp [h]
      constructor
      · intro hd hfo
        simp only [classify]
        rw [if_neg hc, if_neg (by simp [hstat] : ¬((!e.statOk) = true)),
          if_pos (by simp [hd, hfo] : (effIsDir e && !fo) = true)]
        exact List.mem_cons_self _ _
      · intro hd
        simp only [classify]
        rw [if_neg hc, if_neg (by simp [hstat] : ¬((!e.statOk) = true)),
          if_neg (by simp [hd] : ¬((effIsDir e && !fo) = true)),
          if_pos (by simp [hd] : (!effIsDir e) = true)]
        exact List.mem_cons_self _ _
    · have ihh := ih e he' hpass hstat
      constructor
      · intro hd hfo
        have hm := ihh.1 hd hfo
        simp only [classify]
        split
        · exact hm
        · split
          · exact hm
          · split
            · exact List.mem_cons_of_mem _ hm
            · split
              · exact hm
              · exact hm
      · intro hd
        have hm := ihh.2 hd
        simp only [classify]
        split
        · exact hm
        · split
          · exact hm
          · split
            · exact hm
            · split
              · exact List.mem_cons_of_mem _ hm
              · exact hm

lemma countChildren_filter (sa : Bool) :
    ∀ l : List DirEnt, countChildren sa l =
      (((l.filter fun se => sa || !hidden se.name).filter fun se => se.isDirRaw).length,
       ((l.filter fun se => sa || !hidden se.name).filter fun se => !se.isDirRaw).length) := by
  intro l
  induction l with
  | nil => rfl
  | cons se rest ih =>
    cases sa <;> by_cases hh : hidden se.name = true <;>
      by_cases hd : se.isDirRaw = true <;>
      simp_all [countChildren, List.filter_cons]

/-- C2: entries whose name starts with a dot are excluded from both panels
and from the footer counts unless the show-all flag is set; with the flag
set, every surviving entry (stat succeeded) is included in the panel its
effective type selects; and the per-directory child counts are the counts of
the children passing the same dot filter. -/
theorem hidden_filter_spec :
    (∀ (args : List String) (fs : FS) (ds fls : List Entry) (fd ff : Nat),
       (run args fs).stdout = [OutItem.panels ds fls fd ff] →
       ((parseArgs args).showAll = false →
          (∀ x ∈ ds, hidden x.name = false) ∧ (∀ x ∈ fls, hidden x.name = false)) ∧
       fd = ds.length ∧ ff = fls.length) ∧
    (∀ (fo : Bool) (fs : FS) (l : List DirEnt) (e : DirEnt), e ∈ l → e.statOk = true →
       ((effIsDir e = true → fo = false → entryOf true fo fs e ∈ (classify true fo fs l).1) ∧
        (effIsDir e = false → entryOf true fo fs e ∈ (classify true fo fs l).2))) ∧
    (∀ (sa : Bool) (l : List DirEnt), countChildren sa l =
      (((l.filter fun se => sa || !hidden se.name).filter fun se => se.isDirRaw).length,
       ((l.filter fun se => sa || !hidden se.name).filter fun se => !se.isDirRaw).length)) := by
  refine ⟨?_, ?_, countChildren_filter⟩
  · intro args fs ds fls fd ff h
    obtain ⟨entries, hroot, hhelp, hds, hfls, hfd, hff⟩ :=
      run_panels_inv args fs ds fls fd ff h
    refine ⟨fun hsa => ⟨?_, ?_⟩, hfd, hff⟩
    · intro x hx
      rw [hds] at hx
      have hx' := (mem_sortBy dirLe x
        ((classify (parseArgs args).showAll (parseArgs args).filesOnly fs entries).1)).mp hx
      rw [hsa] at hx'
      exact (classify_hidden_false _ fs entries).1 x hx'
    · intro x hx
      rw [hfls] at hx
      have hx' := (mem_sortBy fileLe x
        ((classify (parseArgs args).showAll (parseArgs args).filesOnly fs entries).2)).mp hx
      rw [hsa] at hx'
      exact (classify_hidden_false _ fs entries).2 x hx'
  · intro fo fs l e he hstat
    exact classify_mem true fo fs l e he (Or.inr rfl) hstat

/-- Witness for C2: with the show-all flag a (non-hidden) directory entry is
included in the directory panel list. -/
theorem hidden_filter_spec_witness :
    entryOf true false (⟨some [⟨"d", true, false, 0, true, none⟩], fun _ => none⟩ : FS)
        ⟨"d", true, false, 0, true, none⟩ ∈
      (classify true false (⟨some [⟨"d", true, false, 0, true, none⟩], fun _ => none⟩ : FS)
        [⟨"d", true, false, 0, true, none⟩]).1 :=
  (hidden_filter_spec.2.1 false _ [⟨"d", true, false, 0, true, none⟩]
    ⟨"d", true, false, 0, true, none⟩ (List.mem_cons_self _ _) rfl).1 rfl rfl

/-! ## Helper lemmas: per-entry errors -/

lemma effIsDir_unresolved (e : DirEnt) (h1 : e.isSym = true)
    (h2 : e.resolvedIsDir = none) : effIsDir e = e.isDirRaw := by
  simp [effIsDir, h1, h2]

lemma classify_skip_statFail (sa fo : Bool) (fs : FS) (e : DirEnt)
    (he : e.statOk = false) :
    ∀ pre post : List DirEnt,
      classify sa fo fs (pre ++ e :: post) = classify sa fo fs (pre ++ post) := by
  intro pre
  induction pre with
  | nil =>
    intro post
    simp only [List.nil_append, classify]
    by_cases h : (hidden e.name && !sa) = true
    · rw [if_pos h]
    · rw [if_neg h, if_pos (by simp [he] : (!e.statOk) = true)]
  | cons a pre ih =>
    intro post
    have h1 : (a :: pre) ++ e :: post = a :: (pre ++ e :: post) := rfl
    have h2 : (a :: pre) ++ post = a :: (pre ++ post) := rfl
    rw [h1, h2]
    simp only [classify]
    rw [ih post]

/-- C7: a per-entry stat failure causes the entry to be silently omitted; a
symlink whose resolution fails is still listed, bucketed by the link's own
raw type; and neither failure makes the run print an error or change the
exit code. -/
theorem per_entry_error_spec :
    (∀ (sa fo : Bool) (fs : FS) (pre post : List DirEnt) (e : DirEnt),
       e.statOk = false →
       classify sa fo fs (pre ++ e :: post) = classify sa fo fs (pre ++ post)) ∧
    (∀ (sa fo : Bool) (fs : FS) (l : List DirEnt) (e : DirEnt),
       e ∈ l → (hidden e.name = false ∨ sa = true) → e.statOk = true →
       e.isSym = true → e.resolvedIsDir = none →
       ((e.isDirRaw = true → fo = false → entryOf sa fo fs e ∈ (classify sa fo fs l).1) ∧
        (e.isDirRaw = false → entryOf sa fo fs e ∈ (classify sa fo fs l).2))) ∧
    (∀ (args : List String) (fs : FS) (entries : List DirEnt),
       fs.rootListing = some entries → (parseArgs args).help = false →
       (run args fs).exitCode = 0 ∧ (run args fs).stderr = []) := by
  refine ⟨?_, ?_, ?_⟩
  · intro sa fo fs pre post e he
    exact classify_skip_statFail sa fo fs e he pre post
  · intro sa fo fs l e he hpass hstat hsym hres
    have heff := effIsDir_unresolved e hsym hres
    have h := classify_mem sa fo fs l e he hpass hstat
    constructor
    · intro hd hfo
      exact h.1 (heff.trans hd) hfo
    · intro hd
      exact h.2 (heff.trans hd)
  · intro args fs entries h1 h2
    simp only [run, h1, h2, Bool.false_eq_true, if_false]
    split <;> simp

/-- Witness for C7: an entry whose stat failed contributes nothing to the
classification. -/
theorem per_entry_error_spec_witness :
    classify false false (⟨none, fun _ => none⟩ : FS)
        ([] ++ (⟨"x", false, false, 0, false, none⟩ : DirEnt) :: []) =
      classify false false (⟨none, fun _ => none⟩ : FS) ([] ++ []) :=
  per_entry_error_spec.1 false false ⟨none, fun _ => none⟩ [] []
    ⟨"x", false, false, 0, false, none⟩ rfl

/-- C8: when, after filtering (and the files-only exclusion of directories),
there is nothing to show, the run prints exactly the `empty` marker — no
panels, no footer — and exits 0 with nothing on standard error. -/
theorem empty_listing_spec (args : List String) (fs : FS) (entries : List DirEnt)
    (h1 : fs.rootListing = some entries)
    (h2 : (parseArgs args).help = false)
    (h3 : classify (parseArgs args).showAll (parseArgs args).filesOnly fs entries =
      ([], [])) :
    run args fs = ⟨0, [OutItem.emptyMarker], []⟩ := by
  simp [run, h1, h2, listsOf, h3, sortBy]

/-- Witness for C8: a directory containing only a hidden entry renders the
empty marker. -/
theorem empty_listing_spec_witness :
    run [] (⟨some [⟨".h", false, false, 0, true, none⟩], fun _ => none⟩ : FS) =
      ⟨0, [OutItem.emptyMarker], []⟩ :=
  empty_listing_spec [] ⟨some [⟨".h", false, false, 0, true, none⟩], fun _ => none⟩
    [⟨".h", false, false, 0, true, none⟩] rfl rfl (by decide)

/-- C10: in the rendered output, the directory panel is in ascending
case-insensitive name order and the file panel is in non-increasing size
order. -/
theorem output_sorted_spec (args : List String) (fs : FS) (ds fls : List Entry)
    (fd ff : Nat) (h : (run args fs).stdout = [OutItem.panels ds fls fd ff]) :
    ds.Pairwise (fun a b => lexLe (lowerChars a.name) (lowerChars b.name) = true) ∧
    fls.Pairwise (fun a b => b.size ≤ a.size) := by
  obtain ⟨entries, -, -, hds, hfls, -, -⟩ := run_panels_inv args fs ds fls fd ff h
  constructor
  · rw [hds]
    exact pairwise_sortBy dirLe dirLe_total dirLe_trans _
  · rw [hfls]
    have hp := pairwise_sortBy fileLe fileLe_total fileLe_trans
      (classify (parseArgs args).showAll (parseArgs args).filesOnly fs entries).2
    exact hp.imp fun h' => by simpa [fileLe] using h'

/-- Witness for C10 at a concrete two-file directory. -/
theorem output_sorted_spec_witness :
    ([] : List Entry).Pairwise
      (fun a b => lexLe (lowerChars a.name) (lowerChars b.name) = true) ∧
    ([⟨"a", false, false, 2, false, "", 0, 0⟩,
      ⟨"b", false, false, 1, false, "", 0, 0⟩] : List Entry).Pairwise
      (fun a b => b.size ≤ a.size) :=
  output_sorted_spec []
    ⟨some [⟨"b", false, false, 1, true, none⟩, ⟨"a", false, false, 2, true, none⟩],
      fun _ => none⟩
    [] [⟨"a", false, false, 2, false, "", 0, 0⟩, ⟨"b", false, false, 1, false, "", 0, 0⟩]
    0 2 (by decide)

/-! ## Helper lemmas: effect traces -/

lemma entryTraceOne_no_write (o : Opts) (a : DirEnt) (e : Eff)
    (h : e ∈ entryTraceOne o a) : isWrite e = false := by
  unfold entryTraceOne at h
  split at h
  · simp at h
  · rcases List.mem_cons.mp h with rfl | h'
    · rfl
    · split at h'
      · simp at h'
      · rcases List.mem_append.mp h' with h1 | h2
        · split at h1
          · rw [List.mem_singleton] at h1
            rw [h1]; rfl
          · simp at h1
        · split at h2
          · rw [List.mem_singleton] at h2
            rw [h2]; rfl
          · simp at h2

lemma entryTrace_no_write (o : Opts) (l : List DirEnt) (e : Eff)
    (h : e ∈ entryTrace o l) : isWrite e = false := by
  unfold entryTrace at h
  rw [List.mem_flatMap] at h
  obtain ⟨a, -, ha⟩ := h
  exact entryTraceOne_no_write o a e ha

lemma cfgPathTrace_no_write (env : Env000) (e : Eff)
    (h : e ∈ cfgPathTrace env) : isWrite e = false := by
  unfold cfgPathTrace at h
  split at h
  · simp at h
  · split at h
    · simp at h
    · rw [List.mem_singleton] at h
      rw [h]; rfl

lemma writeFontSize_write (env : Env000) (cp p : String)
    (h : Eff.writeFileE p ∈ writeFontSizeTrace env cp) : p = cp := by
  unfold writeFontSizeTrace at h
  rcases List.mem_cons.mp h with h1 | h2
  · simp at h1
  · split at h2
    · rw [List.mem_singleton] at h2
      rw [Eff.writeFileE.injEq] at h2
      exact h2
    · simp at h2

lemma alacrittyCfgPath_some (env : Env000) (cp : String)
    (h : alacrittyCfgPath env = some cp) :
    ∃ a, env.appdata = some a ∧ a ≠ "" ∧ cp = a ++ "/alacritty/alacritty.toml" := by
  unfold alacrittyCfgPath at h
  split at h
  · simp at h
  · rename_i a ha
    split at h
    · simp at h
    · rename_i hempty
      split at h
      · rw [Option.some.injEq] at h
        exact ⟨a, ha, hempty, h.symm⟩
      · simp at h

lemma writePart_mem (env : Env000) (cp p : String)
    (h : Eff.writeFileE p ∈
      writeFontSizeTrace env cp ++ Eff.termSizeQ :: writeFontSizeTrace env cp) :
    p = cp := by
  rcases List.mem_append.mp h with h7 | h8
  · exact writeFontSize_write env cp p h7
  · rcases List.mem_cons.mp h8 with h0 | h9
    · simp at h0
    · exact writeFontSize_write env cp p h9

/-- C4 (amended): a run of the primary variant performs only reads (one
target-directory read, per-entry stats, optional child reads, one
terminal-size query) and never writes to any file; the font-autoscaling
variant of src/unnamed/part_000 additionally writes, and every file it ever
writes is the Alacritty configuration file under `APPDATA` (rewriting the
font size and restoring it).  The claim as stated — no write ever — is
refuted by the counterexample. -/
theorem write_effects_spec :
    (∀ (args : List String) (fs : FS) (e : Eff),
       e ∈ mainTrace args fs → isWrite e = false) ∧
    (∀ (args : List String) (fs : FS) (env : Env000) (p : String),
       Eff.writeFileE p ∈ part000Trace args fs env →
       ∃ a, env.appdata = some a ∧ a ≠ "" ∧ p = a ++ "/alacritty/alacritty.toml") := by
  constructor
  · intro args fs e h
    simp only [mainTrace] at h
    split at h
    · simp at h
    · rcases List.mem_cons.mp h with rfl | h'
      · rfl
      · split at h'
        · simp at h'
        · rcases List.mem_append.mp h' with h1 | h2
          · exact entryTrace_no_write _ _ e h1
          · split at h2
            · simp at h2
            · rw [List.mem_singleton] at h2
              rw [h2]; rfl
  · intro args fs env p h
    simp only [part000Trace] at h
    split at h
    · simp at h
    · rcases List.mem_cons.mp h with h0 | h'
      · simp at h0
      · split at h'
        · simp at h'
        · rcases List.mem_append.mp h' with h1 | h2
          · have hw := entryTrace_no_write _ _ _ h1
            simp [isWrite] at hw
          · split at h2
            · simp at h2
            · rcases List.mem_cons.mp h2 with h0 | h3
              · simp at h0
              · rcases List.mem_append.mp h3 with h4 | h5
                · have hw := cfgPathTrace_no_write env _ h4
                  simp [isWrite] at hw
                · split at h5
                  · simp at h5
                  · rename_i cp hcp
                    split at h5
                    · simp at h5
                    · rcases List.mem_cons.mp h5 with h0 | h6
                      · simp at h0
                      · split at h6
                        · simp at h6
                        · split at h6 <;> split at h6 <;>
                            first
                              | (obtain ⟨a, ha, hne, hcp'⟩ :=
                                  alacrittyCfgPath_some env cp hcp
                                 exact ⟨a, ha, hne, (writePart_mem env cp p h6).trans hcp'⟩)
                              | simp at h6

/-- Witness for C4: on a one-file listing in a 5-line terminal with an
Alacritty config of font size 12, the written path is the config path. -/
theorem write_effects_spec_witness :
    ∃ a, (⟨some "A", true, true, some 12, some (80, 5), some (80, 5)⟩ : Env000).appdata =
        some a ∧ a ≠ "" ∧ "A/alacritty/alacritty.toml" = a ++ "/alacritty/alacritty.toml" :=
  write_effects_spec.2 []
    ⟨some [⟨"f", false, false, 1, true, none⟩], fun _ => none⟩
    ⟨some "A", true, true, some 12, some (80, 5), some (80, 5)⟩
    "A/alacritty/alacritty.toml"
    (by
      simp +decide only [part000Trace, entryTrace, entryTraceOne, classify,
        cfgPathTrace, writeFontSizeTrace, readFontSizeVal, alacrittyCfgPath,
        parseArgs, parseLoop, hidden, firstIs, effIsDir, entryOf, goExt, extScan,
        List.flatMap]
      norm_num
      decide)

/-- C4 counterexample: the font-autoscaling variant does write a file.  With
one file to list, a 5-line terminal, and an Alacritty config of font size 12,
the run's effect trace contains a write of the config file (the program
scales the font down and restores it on exit). -/
theorem part000_write_counterexample :
    Eff.writeFileE "A/alacritty/alacritty.toml" ∈
      part000Trace []
        (⟨some [⟨"f", false, false, 1, true, none⟩], fun _ => none⟩ : FS)
        ⟨some "A", true, true, some 12, some (80, 5), some (80, 5)⟩ ∧
    isWrite (Eff.writeFileE "A/alacritty/alacritty.toml") = true := by
  constructor
  · simp +decide only [part000Trace, entryTrace, entryTraceOne, classify,
      cfgPathTrace, writeFontSizeTrace, readFontSizeVal, alacrittyCfgPath,
      parseArgs, parseLoop, hidden, firstIs, effIsDir, entryOf, goExt, extScan,
      List.flatMap]
    norm_num
    decide
  · rfl

end Peek
